import Mathlib

/-!
Shallow embedding of `src/retireve_acl_papers.py`.

The program stems a delimited keyword list (`Stemmer.stem_keywords`), and
filters an anthology of papers (`PaperSelector.filter_papers`): a paper is
selected when every keyword group contributes at least one stemmed
alternative found by a case-insensitive regex search in the stemmed
abstract or stemmed title, and its year parses to an integer `>= 2018`.

External collaborators are modelled as follows:
* the NLTK tokenizer + Porter stemmer behind `Stemmer.stem_text` is an
  abstract parameter `stem_text : String → List String` of the embedding
  (the spec treats it as an out-of-scope collaborator);
* Python `str.split` / `str.join` are modelled character-exactly by
  `splitChar` / `pyJoin`;
* Python `int(...)` applied to the year field is modelled by `pyInt`
  (optional sign followed by decimal digits; `None` or a non-numeric
  string raises, modelled as `none`);
* the `regex.search(pattern, string, flags=regex.I)` call is modelled by
  `search_regex` for patterns made of literal characters and the `.`
  metacharacter: an unanchored search for a case-insensitive match, with
  `.` matching any single character — the metacharacter behaviour the
  unescaped stems inherit;
* a raised Python exception is an `Except.error`, and the mutable
  `selected_papers` dict is an insertion-ordered association list with
  Python dict assignment semantics (`dictInsert`).
-/

namespace RetrieveAcl

/-- Model of Python `str.split(sep)` for a one-character separator, on the
underlying character list: `"a|b|".split("|") = ["a", "b", ""]`, and the
empty string splits to `[""]`. -/
def splitCharList (sep : Char) : List Char → List (List Char)
  | [] => [[]]
  | c :: cs =>
    if c = sep then [] :: splitCharList sep cs
    else
      match splitCharList sep cs with
      | [] => [[c]]
      | w :: ws => (c :: w) :: ws

/-- Model of Python `str.split(sep)` for a one-character separator. -/
def splitChar (sep : Char) (s : String) : List String :=
  (splitCharList sep s.data).map String.mk

/-- The `keywords.split("|")` and `group.split("|")` calls of the source. -/
def splitPipe (s : String) : List String :=
  splitChar '|' s

/-- Model of Python `sep.join(list)`. -/
def pyJoin (sep : String) : List String → String
  | [] => ""
  | [x] => x
  | x :: y :: ys => x ++ sep ++ pyJoin sep (y :: ys)

/-- Decimal accumulation over a digit list; `none` on a non-digit. -/
def parseNatAux : List Char → Nat → Option Nat
  | [], acc => some acc
  | c :: cs, acc =>
    if c.isDigit then parseNatAux cs (acc * 10 + (c.toNat - 48))
    else none

/-- A non-empty all-digit character list, as a natural number. -/
def parseDigits : List Char → Option Nat
  | [] => none
  | cs => parseNatAux cs 0

/-- Model of Python `int(s)` on a string: optional sign then decimal
digits (whitespace padding and underscore grouping never occur in the
corpus year field and are not modelled); anything else raises
`ValueError`, modelled as `none`. -/
def pyIntStr (s : String) : Option Int :=
  match s.data with
  | [] => none
  | c :: cs =>
    if c = '-' then (parseDigits cs).map (fun n => -(n : Int))
    else if c = '+' then (parseDigits cs).map (fun n => (n : Int))
    else (parseDigits (c :: cs)).map (fun n => (n : Int))

/-- Model of `int(paper_info.get('year'))`: `get` yields `None` when the
field is missing, and `int(None)` raises `TypeError`, modelled as
`none`. -/
def pyInt : Option String → Option Int
  | none => none
  | some s => pyIntStr s

/-- A corpus record as the source reads it: `get_title('text')`,
`get_abstract('text')`, and the `as_dict()` projections `year` and `url`
(either may be missing). -/
structure Paper where
  id : String
  title : String
  abstract : String
  year : Option String
  url : Option String
  deriving Repr, DecidableEq

/-- The value stored into `selected_papers` for a selected paper. -/
structure PaperInfo where
  title : String
  abstract : String
  url : Option String
  deriving Repr, DecidableEq

/-- The dict value built at lines 106-110 of the source: the original
(unstemmed) title and abstract and the record's url. -/
def paperEntry (p : Paper) : PaperInfo :=
  { title := p.title, abstract := p.abstract, url := p.url }

/-- Whether a pattern character matches a text character under
`regex.I`: `.` matches any character, any other character matches
case-insensitively. -/
def charMatches (pc c : Char) : Bool :=
  pc = '.' || pc.toLower = c.toLower

/-- Whether the pattern matches a prefix of the text (anchored at this
position). -/
def matchHere : List Char → List Char → Bool
  | [], _ => true
  | _ :: _, [] => false
  | pc :: ps, c :: cs => charMatches pc c && matchHere ps cs

/-- Try the anchored match at every start position, left to right. -/
def searchFrom (p : List Char) : List Char → Bool
  | [] => matchHere p []
  | c :: cs => matchHere p (c :: cs) || searchFrom p cs

/-- Model of `PaperSelector.search_regex`: `regex.search(pattern=pattern,
string=string, flags=regex.I)` with the unescaped stem as the pattern,
for patterns of literal characters and the `.` metacharacter; truthiness
of the returned match object becomes `Bool`. -/
def search_regex (pattern s : String) : Bool :=
  searchFrom pattern.data s.data

/-- The `" ".join(self.stemmer.stem_text(text))` computations at lines
94-95 of the source. -/
def stemJoin (stem_text : String → List String) (text : String) : String :=
  pyJoin " " (stem_text text)

/-- The match condition of `filter_papers` (lines 98-101): `all` over the
groups of `any` over `group.split("|")` of a regex search in the stemmed
abstract or the stemmed title. -/
def paperMatches (stem_text : String → List String) (grouped_stems : List String)
    (p : Paper) : Bool :=
  let abstract_stem := stemJoin stem_text p.abstract
  let title_stem := stemJoin stem_text p.title
  grouped_stems.all fun group =>
    (splitPipe group).any fun stem =>
      search_regex stem abstract_stem || search_regex stem title_stem

/-- Python dict assignment `d[k] = v` on an insertion-ordered association
list: overwrite in place when the key is present, else append. -/
def dictInsert : List (String × PaperInfo) → String → PaperInfo → List (String × PaperInfo)
  | [], k, v => [(k, v)]
  | (k', v') :: rest, k, v =>
    if k' = k then (k, v) :: rest else (k', v') :: dictInsert rest k v

/-- One iteration of the `filter_papers` loop (lines 89-110): compute the
stemmed fields, test the match, and only then parse the year — a failed
parse raises, a year `>= 2018` inserts the projection keyed by the
record's identifier. -/
def processPaper (stem_text : String → List String) (grouped_stems : List String)
    (sel : List (String × PaperInfo)) (p : Paper) :
    Except String (List (String × PaperInfo)) :=
  if paperMatches stem_text grouped_stems p then
    match pyInt p.year with
    | none => Except.error "invalid year field"
    | some year =>
      if year ≥ 2018 then Except.ok (dictInsert sel p.id (paperEntry p))
      else Except.ok sel
  else Except.ok sel

/-- The `filter_papers` loop run from a given accumulated selection. -/
def filterFrom (stem_text : String → List String) (grouped_stems : List String)
    (sel : List (String × PaperInfo)) :
    List Paper → Except String (List (String × PaperInfo))
  | [] => Except.ok sel
  | p :: ps =>
    match processPaper stem_text grouped_stems sel p with
    | Except.error e => Except.error e
    | Except.ok sel₁ => filterFrom stem_text grouped_stems sel₁ ps

/-- `PaperSelector.filter_papers` over the corpus in iteration order,
starting from the empty `selected_papers` dict created in `__init__`. -/
def filter_papers (stem_text : String → List String) (grouped_stems : List String)
    (corpus : List Paper) : Except String (List (String × PaperInfo)) :=
  filterFrom stem_text grouped_stems [] corpus

/-- The `[self.stem_text(word)[0] for word in keyword_list]` comprehension
of `stem_keywords`: first stemmed token of each alternative, left to
right; an alternative whose stemming is empty makes the `[0]` indexing
raise `IndexError`, modelled as `none`. -/
def firstStems (stem_text : String → List String) : List String → Option (List String)
  | [] => some []
  | w :: ws =>
    match (stem_text w).head? with
    | none => none
    | some s =>
      match firstStems stem_text ws with
      | none => none
      | some rest => some (s :: rest)

/-- `Stemmer.stem_keywords`: split on `"|"`, take the first stemmed token
of each alternative, rejoin with `"|"`. -/
def stem_keywords (stem_text : String → List String) (keywords : String) :
    Option String :=
  (firstStems stem_text (splitPipe keywords)).map (pyJoin "|")

/-- Whether a record's year field parses and the parsed year passes the
hard-coded cutoff of the source (line 105). -/
def yearPasses (p : Paper) : Bool :=
  match pyInt p.year with
  | some y => decide (y ≥ 2018)
  | none => false

/-- Declarative selection predicate used to state the refinement theorems:
a record passes when it matches the keyword groups and its year field
parses to an integer `>= 2018`. -/
def selects (stem_text : String → List String) (grouped_stems : List String)
    (p : Paper) : Bool :=
  paperMatches stem_text grouped_stems p && yearPasses p

/-- Concrete whitespace tokenizer standing in for the external stemmer in
closed instances: split on spaces and drop empty pieces (so the empty
string yields the empty token sequence). -/
def wsTokens (s : String) : List String :=
  (splitChar ' ' s).filter (fun w => w ≠ "")

lemma charMatches_iff (a b : Char) :
    charMatches a b = true ↔ (a = '.' ∨ a.toLower = b.toLower) := by
  simp [charMatches]

lemma matchHere_iff (p : List Char) : ∀ s : List Char,
    matchHere p s = true ↔
      ∃ mid post, s = mid ++ post ∧
        List.Forall₂ (fun a b => charMatches a b = true) p mid := by
  induction p with
  | nil =>
    intro s
    constructor
    · intro _
      exact ⟨[], s, rfl, List.Forall₂.nil⟩
    · intro _
      rfl
  | cons pc ps ih =>
    intro s
    cases s with
    | nil =>
      constructor
      · intro h
        simp [matchHere] at h
      · rintro ⟨mid, post, hs, hf⟩
        cases hf with
        | cons hab hrest => simp at hs
    | cons c cs =>
      constructor
      · intro h
        rw [matchHere, Bool.and_eq_true] at h
        obtain ⟨mid, post, hcs, hf⟩ := (ih cs).mp h.2
        exact ⟨c :: mid, post, by rw [hcs]; rfl, List.Forall₂.cons h.1 hf⟩
      · rintro ⟨mid, post, hs, hf⟩
        cases hf with
        | cons hab hrest =>
          rw [List.cons_append] at hs
          injection hs with h₁ h₂
          subst h₁
          rw [matchHere, Bool.and_eq_true]
          exact ⟨hab, (ih cs).mpr ⟨_, post, h₂, hrest⟩⟩

lemma searchFrom_iff (p : List Char) : ∀ s : List Char,
    searchFrom p s = true ↔
      ∃ pre rest, s = pre ++ rest ∧ matchHere p rest = true := by
  intro s
  induction s with
  | nil =>
    constructor
    · intro h
      exact ⟨[], [], rfl, h⟩
    · rintro ⟨pre, rest, hs, hm⟩
      obtain ⟨hpre, hrest⟩ := List.append_eq_nil.mp hs.symm
      subst hpre
      subst hrest
      exact hm
  | cons c cs ih =>
    constructor
    · intro h
      rw [searchFrom, Bool.or_eq_true] at h
      cases h with
      | inl h => exact ⟨[], c :: cs, rfl, h⟩
      | inr h =>
        obtain ⟨pre, rest, hcs, hm⟩ := ih.mp h
        exact ⟨c :: pre, rest, by rw [hcs]; rfl, hm⟩
    · rintro ⟨pre, rest, hs, hm⟩
      rw [searchFrom, Bool.or_eq_true]
      cases pre with
      | nil =>
        left
        have : rest = c :: cs := by simpa using hs.symm
        rwa [this] at hm
      | cons d pre₁ =>
        right
        rw [List.cons_append] at hs
        injection hs with h₁ h₂
        exact ih.mpr ⟨pre₁, rest, h₂, hm⟩

/-- Claim C2: a per-alternative match is a case-insensitive
regular-expression search of the unescaped stem against the
whitespace-joined stemmed text: the search succeeds exactly when some
substring (at any position — no word-boundary anchoring, so a match
inside a longer word counts) matches the stem character by character,
where the `.` metacharacter keeps its regex meaning (it matches any
character) and every other character matches case-insensitively. -/
theorem c2_search_regex_semantics (stem : String) (stem_text : String → List String)
    (text : String) :
    (search_regex stem (stemJoin stem_text text) = true ↔
      ∃ pre mid post, (stemJoin stem_text text).data = pre ++ mid ++ post ∧
        mid.length = stem.data.length ∧
        List.Forall₂ (fun a b => charMatches a b = true) stem.data mid) ∧
    (∀ c : Char, charMatches '.' c = true) ∧
    (∀ a b : Char, charMatches a b = true ↔ (a = '.' ∨ a.toLower = b.toLower)) := by
  refine ⟨?_, ?_, charMatches_iff⟩
  · constructor
    · intro h
      obtain ⟨pre, rest, hs, hm⟩ := (searchFrom_iff _ _).mp h
      obtain ⟨mid, post, hrest, hf⟩ := (matchHere_iff _ _).mp hm
      exact ⟨pre, mid, post, by rw [hs, hrest, List.append_assoc], hf.length_eq.symm, hf⟩
    · rintro ⟨pre, mid, post, hs, _, hf⟩
      exact (searchFrom_iff _ _).mpr
        ⟨pre, mid ++ post, by rw [hs, List.append_assoc],
          (matchHere_iff _ _).mpr ⟨mid, post, rfl, hf⟩⟩
  · intro c
    simp [charMatches]

/-- Claim C1: the matcher is the logical AND over the keyword groups of
the logical OR over each group's alternatives of a regex match in the
stemmed abstract or the stemmed title; in particular a two-group query
where the title satisfies only group A and the abstract satisfies only
group B still matches. -/
theorem c1_match_and_over_groups :
    (∀ (stem_text : String → List String) (grouped_stems : List String) (p : Paper),
      paperMatches stem_text grouped_stems p = true ↔
        ∀ group ∈ grouped_stems, ∃ stem ∈ splitPipe group,
          (search_regex stem (stemJoin stem_text p.title) = true ∨
           search_regex stem (stemJoin stem_text p.abstract) = true)) ∧
    (paperMatches wsTokens ["alpha", "beta"]
        { id := "p1", title := "alpha", abstract := "beta",
          year := some "2019", url := none } = true ∧
      search_regex "alpha" (stemJoin wsTokens "beta") = false ∧
      search_regex "beta" (stemJoin wsTokens "alpha") = false) := by
  constructor
  · intro stem_text grouped_stems p
    simp only [paperMatches, List.all_eq_true, List.any_eq_true, Bool.or_eq_true]
    constructor
    · intro h group hg
      obtain ⟨stem, hstem, hor⟩ := h group hg
      exact ⟨stem, hstem, hor.symm⟩
    · intro h group hg
      obtain ⟨stem, hstem, hor⟩ := h group hg
      exact ⟨stem, hstem, hor.symm⟩
  · exact ⟨by decide, by decide, by decide⟩

lemma mem_dictInsert_self (sel : List (String × PaperInfo)) (k : String) (v : PaperInfo) :
    (k, v) ∈ dictInsert sel k v := by
  induction sel with
  | nil => simp [dictInsert]
  | cons kv rest ih =>
    obtain ⟨k', v'⟩ := kv
    by_cases h : k' = k <;> simp [dictInsert, h, ih]

/-- Claim C3: a record that satisfies the keyword match is included in
the selection exactly when its parsed year is at least the hard-coded
cutoff 2018: at year `>= 2018` the entry is inserted (and present in the
result), below 2018 the selection is returned unchanged. -/
theorem c3_year_cutoff (stem_text : String → List String) (grouped_stems : List String)
    (sel : List (String × PaperInfo)) (p : Paper) (y : Int)
    (hm : paperMatches stem_text grouped_stems p = true)
    (hy : pyInt p.year = some y) :
    (y ≥ 2018 →
      processPaper stem_text grouped_stems sel p =
        Except.ok (dictInsert sel p.id (paperEntry p)) ∧
      (p.id, paperEntry p) ∈ dictInsert sel p.id (paperEntry p)) ∧
    (y < 2018 → processPaper stem_text grouped_stems sel p = Except.ok sel) := by
  constructor
  · intro hge
    refine ⟨?_, mem_dictInsert_self sel p.id (paperEntry p)⟩
    simp [processPaper, hm, hy, hge]
  · intro hlt
    simp [processPaper, hm, hy, not_le.mpr hlt]

theorem c3_year_cutoff_witness :
    (processPaper wsTokens ["t"] []
        { id := "a", title := "t x", abstract := "", year := some "2018", url := none } =
      Except.ok [("a", { title := "t x", abstract := "", url := none })]) ∧
    (processPaper wsTokens ["t"] []
        { id := "b", title := "t x", abstract := "", year := some "2017", url := none } =
      Except.ok []) := by
  constructor
  · exact ((c3_year_cutoff wsTokens ["t"] [] _ 2018 (by decide) (by decide)).1
      (by decide)).1
  · exact (c3_year_cutoff wsTokens ["t"] [] _ 2017 (by decide) (by decide)).2 (by decide)

/-- Claim C6: the year field is parsed only after the keyword match has
succeeded: a record failing the match is processed without any error and
leaves the selection unchanged whatever its year field holds, while a
matching record whose year is missing or non-numeric raises the error
that aborts the scan. -/
theorem c6_year_parsed_after_match (stem_text : String → List String)
    (grouped_stems : List String) (sel : List (String × PaperInfo)) (p : Paper) :
    (paperMatches stem_text grouped_stems p = false →
      processPaper stem_text grouped_stems sel p = Except.ok sel) ∧
    (paperMatches stem_text grouped_stems p = true → pyInt p.year = none →
      processPaper stem_text grouped_stems sel p = Except.error "invalid year field") := by
  constructor
  · intro h
    simp [processPaper, h]
  · intro h hy
    simp [processPaper, h, hy]

theorem c6_year_parsed_after_match_witness :
    (processPaper wsTokens ["zzz"] []
        { id := "a", title := "t", abstract := "", year := none, url := none } =
      Except.ok []) ∧
    (processPaper wsTokens [] []
        { id := "b", title := "t", abstract := "", year := some "20x8", url := none } =
      Except.error "invalid year field") := by
  constructor
  · exact (c6_year_parsed_after_match wsTokens ["zzz"] [] _).1 (by decide)
  · exact (c6_year_parsed_after_match wsTokens [] [] _).2 (by decide) (by decide)

lemma search_regex_empty_of_ne (stem : String) (h : stem ≠ "") :
    search_regex stem "" = false := by
  obtain ⟨data⟩ := stem
  cases data with
  | nil => exact absurd rfl h
  | cons c cs => rfl

lemma search_regex_nil_pattern (t : String) : search_regex "" t = true := by
  show searchFrom [] t.data = true
  cases t.data with
  | nil => rfl
  | cons c cs => rw [searchFrom, matchHere, Bool.true_or]

lemma search_regex_empty_or (stem t : String) :
    (search_regex stem "" || search_regex stem t) = search_regex stem t := by
  by_cases h : stem = ""
  · subst h
    rw [search_regex_nil_pattern, search_regex_nil_pattern, Bool.true_or]
  · rw [search_regex_empty_of_ne stem h, Bool.false_or]

/-- Claim C9: a paper whose abstract is the empty string is matched
without error: the stemmed abstract is the empty string (given that the
tokenizer stems the empty string to the empty token sequence), no
non-empty stem matches in it, and the paper matches exactly when the
title alone satisfies every keyword group. -/
theorem c9_empty_abstract (stem_text : String → List String) (grouped_stems : List String)
    (p : Paper) (hst : stem_text "" = []) (hab : p.abstract = "") :
    stemJoin stem_text p.abstract = "" ∧
    (∀ stem : String, stem ≠ "" →
      search_regex stem (stemJoin stem_text p.abstract) = false) ∧
    (paperMatches stem_text grouped_stems p = true ↔
      (grouped_stems.all fun group =>
        (splitPipe group).any fun stem =>
          search_regex stem (stemJoin stem_text p.title)) = true) := by
  have h0 : stemJoin stem_text p.abstract = "" := by
    rw [hab, stemJoin, hst]
    rfl
  refine ⟨h0, ?_, ?_⟩
  · intro stem hstem
    rw [h0]
    exact search_regex_empty_of_ne stem hstem
  · simp only [paperMatches, h0, search_regex_empty_or]

theorem c9_empty_abstract_witness :
    stemJoin wsTokens "" = "" ∧
    search_regex "x" (stemJoin wsTokens "") = false ∧
    (paperMatches wsTokens ["alpha"]
        { id := "a", title := "alpha", abstract := "", year := some "2019", url := none } =
          true ↔
      (["alpha"].all fun group =>
        (splitPipe group).any fun stem =>
          search_regex stem (stemJoin wsTokens "alpha")) = true) := by
  have h := c9_empty_abstract wsTokens ["alpha"]
    { id := "a", title := "alpha", abstract := "", year := some "2019", url := none }
    (by decide) rfl
  exact ⟨h.1, h.2.1 "x" (by decide), h.2.2⟩

lemma splitCharList_ne_nil (sep : Char) (l : List Char) : splitCharList sep l ≠ [] := by
  cases l with
  | nil => simp [splitCharList]
  | cons c cs =>
    rw [splitCharList]
    by_cases h : c = sep
    · simp [h]
    · rw [if_neg h]
      split <;> simp

lemma splitPipe_ne_nil (s : String) : splitPipe s ≠ [] := by
  intro h
  exact splitCharList_ne_nil '|' s.data (List.map_eq_nil_iff.mp h)

lemma data_append (a b : String) : (a ++ b).data = a.data ++ b.data := by
  cases a
  cases b
  rfl

lemma mk_data (s : String) : String.mk s.data = s := rfl

lemma splitCharList_no_sep (sep : Char) (w : List Char) (hw : sep ∉ w) :
    splitCharList sep w = [w] := by
  induction w with
  | nil => rfl
  | cons c cs ih =>
    rw [splitCharList, if_neg (fun h => hw (by rw [← h]; exact List.mem_cons_self c cs)),
      ih (fun h => hw (List.mem_cons_of_mem c h))]

lemma splitCharList_append_sep (sep : Char) (w l : List Char) (hw : sep ∉ w) :
    splitCharList sep (w ++ sep :: l) = w :: splitCharList sep l := by
  induction w with
  | nil => simp [splitCharList]
  | cons c cs ih =>
    rw [List.cons_append, splitCharList,
      if_neg (fun h => hw (by rw [← h]; exact List.mem_cons_self c cs)),
      ih (fun h => hw (List.mem_cons_of_mem c h))]

lemma splitPipe_pyJoin (xs : List String) (hxs : xs ≠ [])
    (hnp : ∀ x ∈ xs, '|' ∉ x.data) :
    splitPipe (pyJoin "|" xs) = xs := by
  induction xs with
  | nil => exact absurd rfl hxs
  | cons x ys ih =>
    cases ys with
    | nil =>
      show splitPipe x = [x]
      rw [splitPipe, splitChar,
        splitCharList_no_sep '|' x.data (hnp x (List.mem_cons_self x []))]
      simp [mk_data]
    | cons y zs =>
      show splitPipe (x ++ "|" ++ pyJoin "|" (y :: zs)) = x :: y :: zs
      have hdata : (x ++ "|" ++ pyJoin "|" (y :: zs)).data =
          x.data ++ '|' :: (pyJoin "|" (y :: zs)).data := by
        rw [data_append, data_append, List.append_assoc]
        rfl
      have ih₁ := ih (by simp) (fun a ha => hnp a (List.mem_cons_of_mem x ha))
      rw [splitPipe, splitChar] at ih₁ ⊢
      rw [hdata,
        splitCharList_append_sep '|' x.data _ (hnp x (List.mem_cons_self x _)),
        List.map_cons, mk_data, ih₁]

lemma firstStems_eq_map (stem_text : String → List String) (l : List String)
    (h : ∀ w ∈ l, stem_text w ≠ []) :
    firstStems stem_text l = some (l.map fun w => (stem_text w).headD "") := by
  induction l with
  | nil => rfl
  | cons w ws ih =>
    obtain ⟨s, ss, hs⟩ : ∃ s ss, stem_text w = s :: ss := by
      cases hst : stem_text w with
      | nil => exact absurd hst (h w (List.mem_cons_self w ws))
      | cons s ss => exact ⟨s, ss, rfl⟩
    rw [firstStems, hs, List.head?, ih (fun a ha => h a (List.mem_cons_of_mem w ha))]
    simp [hs]

lemma firstStems_eq_none (stem_text : String → List String) (l : List String)
    (w : String) (hw : w ∈ l) (h : stem_text w = []) :
    firstStems stem_text l = none := by
  induction l with
  | nil => cases hw
  | cons x xs ih =>
    rw [firstStems]
    rcases List.mem_cons.mp hw with h₁ | h₁
    · subst h₁
      rw [h]
      rfl
    · cases hx : (stem_text x).head? with
      | none => rfl
      | some s => rw [ih h₁]

/-- Claim C4: `stem_keywords` splits the keyword string on `"|"` into at
least one substring, replaces each substring by the first stemmed token
`stem_text` produces for it, and rejoins with the same delimiter; under
the collaborator facts that each alternative stems to a non-empty token
list whose first token does not contain the delimiter, splitting the
output on `"|"` yields exactly as many pieces as the input. -/
theorem c4_stem_keywords_shape (stem_text : String → List String) (keywords : String)
    (hne : ∀ w ∈ splitPipe keywords, stem_text w ≠ [])
    (hnp : ∀ w ∈ splitPipe keywords, '|' ∉ ((stem_text w).headD "").data) :
    stem_keywords stem_text keywords =
      some (pyJoin "|" ((splitPipe keywords).map fun w => (stem_text w).headD "")) ∧
    1 ≤ (splitPipe keywords).length ∧
    ∀ out, stem_keywords stem_text keywords = some out →
      (splitPipe out).length = (splitPipe keywords).length := by
  have hmain : stem_keywords stem_text keywords =
      some (pyJoin "|" ((splitPipe keywords).map fun w => (stem_text w).headD "")) := by
    rw [stem_keywords, firstStems_eq_map stem_text _ hne]
    rfl
  refine ⟨hmain, ?_, ?_⟩
  · have := splitPipe_ne_nil keywords
    cases hsp : splitPipe keywords with
    | nil => exact absurd hsp this
    | cons a l => simp
  · intro out hout
    rw [hmain] at hout
    injection hout with hout
    rw [← hout, splitPipe_pyJoin _
      (fun hmap => splitPipe_ne_nil keywords (List.map_eq_nil_iff.mp hmap))
      (fun a ha => by
        obtain ⟨w, hw, hwa⟩ := List.mem_map.mp ha
        exact hwa ▸ hnp w hw),
      List.length_map]

theorem c4_stem_keywords_shape_witness :
    stem_keywords wsTokens "sentiment analysis|emotion" = some "sentiment|emotion" ∧
    (splitPipe "sentiment|emotion").length =
      (splitPipe "sentiment analysis|emotion").length := by
  have h := c4_stem_keywords_shape wsTokens "sentiment analysis|emotion"
    (by decide) (by decide)
  have h₁ : stem_keywords wsTokens "sentiment analysis|emotion" =
      some "sentiment|emotion" := h.1.trans (by decide)
  exact ⟨h₁, h.2.2 "sentiment|emotion" h₁⟩

/-- Claim C5: an alternative whose stemming yields the empty token
sequence makes the `[0]` indexing of `stem_keywords` fail (the
`IndexError`, modelled as `none`), and conversely when every alternative
yields at least one stemmed token the indexing is in bounds and
`stem_keywords` returns a result. -/
theorem c5_empty_stem_error (stem_text : String → List String) (keywords : String) :
    ((∃ w ∈ splitPipe keywords, stem_text w = []) →
      stem_keywords stem_text keywords = none) ∧
    ((∀ w ∈ splitPipe keywords, stem_text w ≠ []) →
      (stem_keywords stem_text keywords).isSome = true) := by
  constructor
  · rintro ⟨w, hw, hempty⟩
    rw [stem_keywords, firstStems_eq_none stem_text _ w hw hempty]
    rfl
  · intro h
    rw [stem_keywords, firstStems_eq_map stem_text _ h]
    rfl

theorem c5_empty_stem_error_witness :
    stem_keywords wsTokens "a|" = none ∧
    (stem_keywords wsTokens "a|b").isSome = true := by
  constructor
  · exact (c5_empty_stem_error wsTokens "a|").1 ⟨"", by decide, by decide⟩
  · exact (c5_empty_stem_error wsTokens "a|b").2 (by decide)

lemma dictInsert_fresh (sel : List (String × PaperInfo)) (k : String) (v : PaperInfo)
    (h : k ∉ sel.map Prod.fst) : dictInsert sel k v = sel ++ [(k, v)] := by
  induction sel with
  | nil => rfl
  | cons kv rest ih =>
    obtain ⟨k', v'⟩ := kv
    simp only [List.map_cons, List.mem_cons] at h
    push_neg at h
    rw [dictInsert, if_neg (fun he => h.1 he.symm), ih h.2]
    rfl

lemma processPaper_ok_fresh (stem_text : String → List String)
    (grouped_stems : List String) (sel sel₁ : List (String × PaperInfo)) (p : Paper)
    (hfresh : p.id ∉ sel.map Prod.fst)
    (h : processPaper stem_text grouped_stems sel p = Except.ok sel₁) :
    (selects stem_text grouped_stems p = true ∧
      sel₁ = sel ++ [(p.id, paperEntry p)]) ∨
    (selects stem_text grouped_stems p = false ∧ sel₁ = sel) := by
  rw [processPaper] at h
  cases hm : paperMatches stem_text grouped_stems p with
  | false =>
    rw [hm] at h
    simp only [Bool.false_eq_true, if_false] at h
    injection h with h
    exact Or.inr ⟨by simp [selects, hm], h.symm⟩
  | true =>
    rw [hm] at h
    simp only [if_true] at h
    cases hy : pyInt p.year with
    | none =>
      rw [hy] at h
      cases h
    | some y =>
      simp only [hy] at h
      by_cases hge : y ≥ 2018
      · rw [if_pos hge] at h
        injection h with h
        refine Or.inl ⟨by simp [selects, hm, yearPasses, hy, hge], ?_⟩
        rw [← h, dictInsert_fresh sel p.id (paperEntry p) hfresh]
      · rw [if_neg hge] at h
        injection h with h
        exact Or.inr ⟨by simp [selects, yearPasses, hy, hge], h.symm⟩

lemma processPaper_fresh_keys (stem_text : String → List String)
    (grouped_stems : List String) (sel sel₁ : List (String × PaperInfo)) (p : Paper)
    (q : String)
    (hfresh : p.id ∉ sel.map Prod.fst)
    (h : processPaper stem_text grouped_stems sel p = Except.ok sel₁)
    (hq₁ : q ∉ sel.map Prod.fst) (hq₂ : q ≠ p.id) : q ∉ sel₁.map Prod.fst := by
  rcases processPaper_ok_fresh stem_text grouped_stems sel sel₁ p hfresh h with
    ⟨_, hsel⟩ | ⟨_, hsel⟩
  · rw [hsel]
    simp [hq₁, hq₂]
  · rw [hsel]
    exact hq₁

lemma filterFrom_ok_eq (stem_text : String → List String)
    (grouped_stems : List String) (corpus : List Paper) :
    ∀ sel sel', (corpus.map Paper.id).Nodup →
      (∀ p ∈ corpus, p.id ∉ sel.map Prod.fst) →
      filterFrom stem_text grouped_stems sel corpus = Except.ok sel' →
      sel' = sel ++ (corpus.filter (selects stem_text grouped_stems)).map
        (fun p => (p.id, paperEntry p)) := by
  induction corpus with
  | nil =>
    intro sel sel' _ _ h
    cases h
    simp
  | cons p ps ih =>
    intro sel sel' hnodup hdisj h
    rw [filterFrom] at h
    cases hp : processPaper stem_text grouped_stems sel p with
    | error e =>
      rw [hp] at h
      cases h
    | ok sel₁ =>
      rw [hp] at h
      have hfresh := hdisj p (List.mem_cons_self p ps)
      have hpid : p.id ∉ ps.map Paper.id := (List.nodup_cons.mp hnodup).1
      have hdisj₁ : ∀ q ∈ ps, q.id ∉ sel₁.map Prod.fst := by
        intro q hq
        exact processPaper_fresh_keys stem_text grouped_stems sel sel₁ p q.id hfresh hp
          (hdisj q (List.mem_cons_of_mem p hq))
          (fun he => hpid (he ▸ List.mem_map_of_mem Paper.id hq))
      have hrec := ih sel₁ sel' (List.nodup_cons.mp hnodup).2 hdisj₁ h
      rcases processPaper_ok_fresh stem_text grouped_stems sel sel₁ p hfresh hp with
        ⟨hc, hsel⟩ | ⟨hc, hsel⟩
      · rw [hrec, hsel, List.filter_cons_of_pos hc, List.map_cons, List.append_assoc]
        rfl
      · rw [hrec, hsel, List.filter_cons_of_neg (by simp [hc])]

/-- Claim C8: during a single run of `filter_papers` the selection only
grows: starting from any already-accumulated selection whose keys are
disjoint from the (duplicate-free) corpus identifiers, a successful run
only appends — every identifier/value pair present before is still
present and unchanged afterwards. -/
theorem c8_selection_monotone (stem_text : String → List String)
    (grouped_stems : List String) (sel sel' : List (String × PaperInfo))
    (corpus : List Paper)
    (hnodup : (corpus.map Paper.id).Nodup)
    (hdisj : ∀ p ∈ corpus, p.id ∉ sel.map Prod.fst)
    (h : filterFrom stem_text grouped_stems sel corpus = Except.ok sel') :
    (∃ t, sel' = sel ++ t) ∧ ∀ kv ∈ sel, kv ∈ sel' := by
  have heq := filterFrom_ok_eq stem_text grouped_stems corpus sel sel' hnodup hdisj h
  refine ⟨⟨_, heq⟩, ?_⟩
  intro kv hkv
  rw [heq]
  exact List.mem_append_left _ hkv

theorem c8_selection_monotone_witness :
    ("p0", { title := "t0", abstract := "a0", url := none : PaperInfo }) ∈
      [("p0", { title := "t0", abstract := "a0", url := none : PaperInfo }),
        ("a", { title := "t x", abstract := "", url := none : PaperInfo })] := by
  have h := c8_selection_monotone wsTokens ["t"]
    [("p0", { title := "t0", abstract := "a0", url := none })]
    [("p0", { title := "t0", abstract := "a0", url := none }),
      ("a", { title := "t x", abstract := "", url := none })]
    [{ id := "a", title := "t x", abstract := "", year := some "2019", url := none }]
    (by decide) (by decide) (by rfl)
  exact h.2 _ (by decide)

/-- Claim C7: on a corpus with unique identifiers, a successful run of
`filter_papers` returns exactly the records passing the keyword match and
the year cutoff, in corpus iteration order, each keyed by the record's
identifier with the original (unstemmed) title, the original (unstemmed)
abstract, and the record's url as the value, and the keys are unique. -/
theorem c7_selection_content (stem_text : String → List String)
    (grouped_stems : List String) (corpus : List Paper)
    (sel' : List (String × PaperInfo))
    (hnodup : (corpus.map Paper.id).Nodup)
    (h : filter_papers stem_text grouped_stems corpus = Except.ok sel') :
    sel' = (corpus.filter (selects stem_text grouped_stems)).map
      (fun p => (p.id, paperEntry p)) ∧
    (sel'.map Prod.fst).Nodup := by
  have heq := filterFrom_ok_eq stem_text grouped_stems corpus [] sel' hnodup
    (by simp) h
  rw [List.nil_append] at heq
  refine ⟨heq, ?_⟩
  have hkeys : sel'.map Prod.fst =
      (corpus.filter (selects stem_text grouped_stems)).map Paper.id := by
    rw [heq, List.map_map]
    rfl
  rw [hkeys]
  exact List.Nodup.sublist ((List.filter_sublist corpus).map Paper.id) hnodup

theorem c7_selection_content_witness :
    [("a", { title := "t x", abstract := "", url := none : PaperInfo })] =
      ([{ id := "a", title := "t x", abstract := "", year := some "2019", url := none },
        { id := "b", title := "zz", abstract := "", year := some "2020", url := none }].filter
          (selects wsTokens ["t"])).map (fun p => (p.id, paperEntry p)) ∧
    (([("a", { title := "t x", abstract := "", url := none : PaperInfo })]).map
      Prod.fst).Nodup :=
  c7_selection_content wsTokens ["t"]
    [{ id := "a", title := "t x", abstract := "", year := some "2019", url := none },
      { id := "b", title := "zz", abstract := "", year := some "2020", url := none }]
    [("a", { title := "t x", abstract := "", url := none })]
    (by decide) (by rfl)

lemma processPaper_ok_of_year (stem_text : String → List String)
    (grouped_stems : List String) (sel : List (String × PaperInfo)) (p : Paper)
    (hy : (pyInt p.year).isSome = true) :
    ∃ sel₁, processPaper stem_text grouped_stems sel p = Except.ok sel₁ := by
  cases hm : paperMatches stem_text grouped_stems p with
  | false => exact ⟨sel, by simp [processPaper, hm]⟩
  | true =>
    cases hy₁ : pyInt p.year with
    | none =>
      rw [hy₁] at hy
      simp at hy
    | some y =>
      by_cases hge : y ≥ 2018
      · exact ⟨dictInsert sel p.id (paperEntry p),
          by simp [processPaper, hm, hy₁, hge]⟩
      · exact ⟨sel, by simp [processPaper, hm, hy₁, hge]⟩

lemma filterFrom_total (stem_text : String → List String)
    (grouped_stems : List String) (corpus : List Paper) :
    ∀ sel, (∀ p ∈ corpus, (pyInt p.year).isSome = true) →
      ∃ sel', filterFrom stem_text grouped_stems sel corpus = Except.ok sel' := by
  induction corpus with
  | nil =>
    intro sel _
    exact ⟨sel, rfl⟩
  | cons p ps ih =>
    intro sel hy
    obtain ⟨sel₁, h₁⟩ := processPaper_ok_of_year stem_text grouped_stems sel p
      (hy p (List.mem_cons_self p ps))
    obtain ⟨sel', h₂⟩ := ih sel₁ (fun q hq => hy q (List.mem_cons_of_mem p hq))
    refine ⟨sel', ?_⟩
    rw [filterFrom, h₁]
    exact h₂

lemma selects_nil_groups (stem_text : String → List String) (p : Paper) :
    selects stem_text [] p = yearPasses p := by
  simp [selects, paperMatches]

/-- Claim C10: with the empty sequence of keyword groups the match is
vacuously true for every paper, so on a corpus with unique identifiers
whose year fields all parse, `filter_papers` selects exactly the records
whose year is at least 2018. -/
theorem c10_empty_groups (stem_text : String → List String) (corpus : List Paper)
    (hnodup : (corpus.map Paper.id).Nodup)
    (hy : ∀ p ∈ corpus, (pyInt p.year).isSome = true) :
    (∀ p : Paper, paperMatches stem_text [] p = true) ∧
    filter_papers stem_text [] corpus =
      Except.ok ((corpus.filter yearPasses).map (fun p => (p.id, paperEntry p))) := by
  refine ⟨fun p => rfl, ?_⟩
  obtain ⟨sel', h⟩ := filterFrom_total stem_text [] corpus [] hy
  have heq := filterFrom_ok_eq stem_text [] corpus [] sel' hnodup (by simp) h
  have hfilter : corpus.filter (selects stem_text []) = corpus.filter yearPasses :=
    List.filter_congr (fun p _ => selects_nil_groups stem_text p)
  show filterFrom stem_text [] [] corpus = _
  rw [h, heq, List.nil_append, hfilter]

theorem c10_empty_groups_witness :
    paperMatches wsTokens []
      { id := "a", title := "t", abstract := "x", year := some "2018", url := none } =
      true ∧
    filter_papers wsTokens []
      [{ id := "a", title := "t", abstract := "x", year := some "2018", url := none },
        { id := "b", title := "u", abstract := "y", year := some "2017", url := none }] =
      Except.ok
        (([{ id := "a", title := "t", abstract := "x", year := some "2018", url := none },
          { id := "b", title := "u", abstract := "y", year := some "2017", url := none }].filter
            yearPasses).map (fun p => (p.id, paperEntry p))) := by
  have h := c10_empty_groups wsTokens
    [{ id := "a", title := "t", abstract := "x", year := some "2018", url := none },
      { id := "b", title := "u", abstract := "y", year := some "2017", url := none }]
    (by decide) (by decide)
  exact ⟨h.1 _, h.2⟩

end RetrieveAcl
